import Mathlib

/-!
# Verification of the Lontext typewriter-overlay core (src/streamlit_app.py)

Shallow embedding of the overlay frame-sequence generator and compositor:

* the text-wrapping stage (`generate_typewriter_clips` lines 47-52) delegates to
  CPython `textwrap.wrap(text, width)` with all options at their defaults
  (`expand_tabs=True`, `replace_whitespace=True`, `drop_whitespace=True`,
  `break_long_words=True`, `break_on_hyphens=True`, `max_lines=None`);
  that stdlib algorithm is modelled character-exactly below (for ASCII text:
  the Python regex classes `\w` and `[^\d\W]` are modelled by
  alphanumeric-or-underscore and alpha-or-underscore);
* the timing, reveal-loop, outline-drawing and resizing logic of
  `generate_typewriter_clips` (lines 37-91);
* the pipeline `overlay_text_on_video` (lines 93-116), with the moviepy
  collaborators modelled by their observable behaviour: `concatenate_videoclips`
  raises `max() arg is an empty sequence` on an empty clip list, clip
  durations are rationals (Python floats are modelled as exact rationals).
-/

namespace Lontext

/-! ## Python string primitives -/

/-- The six characters of Python's `string.whitespace` / `textwrap._whitespace`
(`'\t\n\x0b\x0c\r '`). -/
def isPyWS (c : Char) : Bool :=
  c = ' ' || c = '\t' || c = '\n' || c = '\x0b' || c = '\x0c' || c = '\r'

/-- Python regex `\w` (ASCII fragment): alphanumeric or underscore. -/
def isPyWordChar (c : Char) : Bool := c.isAlphanum || c = '_'

/-- Python regex `[^\d\W]` (ASCII fragment): a word char that is not a digit. -/
def isPyLetter (c : Char) : Bool := c.isAlpha || c = '_'

/-- The `word_punct` class `[\w!"'&.,?]` of `textwrap.TextWrapper`. -/
def isWordPunct (c : Char) : Bool :=
  isPyWordChar c || c = '!' || c = '"' || c = '\'' || c = '&' || c = '.' ||
  c = ',' || c = '?'

/-- `str.expandtabs(ts)` for `ts > 0`: replace each tab by spaces up to the next
multiple of `ts`; newline and carriage return reset the column counter. -/
def expandTabs (ts : Nat) : Nat → List Char → List Char
  | _, [] => []
  | col, c :: rest =>
    if c = '\t' then
      let pad := ts - col % ts
      List.replicate pad ' ' ++ expandTabs ts (col + pad) rest
    else if c = '\n' || c = '\r' then
      c :: expandTabs ts 0 rest
    else
      c :: expandTabs ts (col + 1) rest

/-- `TextWrapper._munge_whitespace`: expand tabs (tabsize 8), then map each of
the six whitespace characters to a space. -/
def munge (s : List Char) : List Char :=
  (expandTabs 8 0 s).map fun c => if isPyWS c then ' ' else c

/-! ## The chunker (`TextWrapper._split` with `wordsep_re`)

The regex splits text into: maximal whitespace runs; em-dash runs `-{2,}`
preceded by a `word_punct` char and followed by a word char; and "words"
(`nowhitespace+?` extended lazily until the first applicable closer: a consumed
hyphen with letter look-behind and look-ahead, end-of-word, or an em-dash
look-ahead).  Look-arounds read the original text, so they may cross the
boundary of the previously emitted chunk. -/

/-- Character at a possibly negative absolute index. -/
def getI (t : List Char) (i : Int) : Option Char :=
  if i < 0 then none else t.get? i.toNat

/-- Letter test at an absolute index (`false` outside the text). -/
def letterAt (t : List Char) (i : Int) : Bool := (getI t i).any isPyLetter

/-- Hyphen test at an absolute index. -/
def hyphenAt (t : List Char) (i : Int) : Bool := (getI t i).any (· = '-')

/-- Length of the run of `'-'` starting at index `i`. -/
def hyphenRunAt (t : List Char) (i : Nat) : Nat :=
  ((t.drop i).takeWhile (fun c => c = '-')).length

/-- Length of the whitespace run starting at index `i`. -/
def wsRunAt (t : List Char) (i : Nat) : Nat :=
  ((t.drop i).takeWhile isPyWS).length

/-- Look-ahead `(?=-{2,}\w)` at absolute index `q`: at least two hyphens
followed directly by a word character. -/
def emDashAhead (t : List Char) (q : Nat) : Bool :=
  2 ≤ hyphenRunAt t q && (t.get? (q + hyphenRunAt t q)).any isPyWordChar

/-- Closer `-(?:(?<=[^\d\W]{2}-)|(?<=[^\d\W]-[^\d\W]-))(?=[^\d\W]-?[^\d\W])`:
the word consumes one more char, a hyphen ending at absolute index `e`. -/
def closerA (t : List Char) (p j : Nat) : Bool :=
  let e : Int := (p + j + 1 : Nat)
  hyphenAt t (e - 1) &&
  (letterAt t (e - 3) && letterAt t (e - 2) ||
    letterAt t (e - 4) && hyphenAt t (e - 3) && letterAt t (e - 2)) &&
  (letterAt t e && letterAt t (e + 1) ||
    letterAt t e && hyphenAt t (e + 1) && letterAt t (e + 2))

/-- Closer `(?=[\t\n\x0b\x0c\r ]|\Z)`: next position is whitespace or the end. -/
def closerB (t : List Char) (q : Nat) : Bool := (t.get? q).all isPyWS

/-- Closer `(?<=[\w!"'&.,?])(?=-{2,}\w)`. -/
def closerC (t : List Char) (q : Nat) : Bool :=
  (getI t ((q : Int) - 1)).any isWordPunct && emDashAhead t q

/-- Lazy expansion of `nowhitespace+?`: the least `j ≥ 1` whose closer fires;
returns the token length (`j`, or `j + 1` when the hyphen closer consumed one
extra character).  `fuel ≥ t.length - p` makes the search total; the
end-of-text closer fires at `j = t.length - p` at the latest. -/
def wordTokenLenGo (t : List Char) (p : Nat) : Nat → Nat → Nat
  | 0, j => j
  | fuel + 1, j =>
    if closerA t p j then j + 1
    else if closerB t (p + j) then j
    else if closerC t (p + j) then j
    else wordTokenLenGo t p fuel (j + 1)

/-- Length of the word token starting at non-whitespace position `p`. -/
def wordTokenLen (t : List Char) (p : Nat) : Nat :=
  wordTokenLenGo t p (t.length + 1) 1

/-- The em-dash alternative `(?<=[\w!"'&.,?])-{2,}(?=\w)` at position `p`. -/
def emDashToken (t : List Char) (p : Nat) : Bool :=
  (getI t ((p : Int) - 1)).any isWordPunct && emDashAhead t p

/-- One pass of the `wordsep_re` tokenizer over the munged text, producing the
chunk list of `TextWrapper._split`.  Every position starts a match, so the
split covers the text; each chunk is nonempty, hence the `if c` filter of
`_split` removes nothing.  `fuel ≥ t.length` suffices since every token has
length at least 1. -/
def splitChunksGo (t : List Char) : Nat → Nat → List (List Char)
  | _, 0 => []
  | p, fuel + 1 =>
    if p < t.length then
      let n :=
        if (t.get? p).all isPyWS then wsRunAt t p
        else if emDashToken t p then hyphenRunAt t p
        else wordTokenLen t p
      ((t.drop p).take n) :: splitChunksGo t (p + n) fuel
    else []

/-- `TextWrapper._split` on already munged text. -/
def splitChunks (t : List Char) : List (List Char) :=
  splitChunksGo t 0 (t.length + 1)

/-! ## The greedy wrapper (`TextWrapper._wrap_chunks`) -/

/-- Python `chunk.strip() == ''` on a munged chunk. -/
def chunkIsWS (c : List Char) : Bool := c.all isPyWS

/-- Sum of the lengths of a list of chunks. -/
def chunksLen (cs : List (List Char)) : Nat := (cs.map List.length).sum

/-- The leading-whitespace drop: `if drop_whitespace and chunks[-1].strip() ==
'' and lines: del chunks[-1]` — only once no line has been emitted (`first`
is `lines == []`). -/
def dropLeadingWS (first : Bool) (chunks : List (List Char)) : List (List Char) :=
  match chunks with
  | [] => []
  | c :: rest => if !first && chunkIsWS c then rest else c :: rest

/-- The inner fitting loop: pop chunks while `cur_len + len(chunk) <= width`.
Returns (popped chunks in order, final `cur_len`, remaining chunks). -/
def popFits (width : Nat) : Nat → List (List Char) →
    List (List Char) × Nat × List (List Char)
  | curLen, [] => ([], curLen, [])
  | curLen, c :: rest =>
    if curLen + c.length ≤ width then
      let r := popFits width (curLen + c.length) rest
      (c :: r.1, r.2.1, r.2.2)
    else
      ([], curLen, c :: rest)

/-- `str.rfind('-', 0, stop)` as an `Option`: the greatest index `< stop`
holding a hyphen. -/
def rfindHyphen (chunk : List Char) (stop : Nat) : Option Nat :=
  ((List.range (min stop chunk.length)).filter
    (fun i => chunk.get? i = some '-')).getLast?

/-- `TextWrapper._handle_long_word` with `break_long_words=True` and
`break_on_hyphens=True`: split the overlong chunk at `space_left`, or just
after the last feasible hyphen.  Returns (piece for the current line,
remainder left in the chunk stack). -/
def handleLongWord (width curLen : Nat) (chunk : List Char) :
    List Char × List Char :=
  let spaceLeft := if width < 1 then 1 else width - curLen
  let e :=
    if spaceLeft < chunk.length then
      match rfindHyphen chunk spaceLeft with
      | some h =>
        if 0 < h ∧ ((chunk.take h).any fun c => c != '-') = true then h + 1
        else spaceLeft
      | none => spaceLeft
    else spaceLeft
  (chunk.take e, chunk.drop e)

/-- The single trailing-whitespace drop: `if cur_line and cur_line[-1].strip()
== '': del cur_line[-1]` (one deletion only). -/
def dropTrailingWS (cur : List (List Char)) : List (List Char) :=
  match cur.getLast? with
  | some c => if chunkIsWS c then cur.dropLast else cur
  | none => cur

/-- One iteration of the `while chunks` loop of `_wrap_chunks`: build the next
line (or none, when the gathered chunks reduce to nothing) and return the
remaining chunk stack. -/
def buildLine (width : Nat) (first : Bool) (chunks : List (List Char)) :
    Option (List Char) × List (List Char) :=
  let chunks1 := dropLeadingWS first chunks
  let p := popFits width 0 chunks1
  let step :=
    match p.2.2 with
    | [] => (p.1, ([] : List (List Char)))
    | c :: r =>
      if width < c.length then
        let hw := handleLongWord width p.2.1 c
        (p.1 ++ [hw.1], hw.2 :: r)
      else (p.1, c :: r)
  let cur2 := dropTrailingWS step.1
  (if cur2.isEmpty then none else some cur2.flatten, step.2)

/-- The `while chunks` loop.  Each iteration with `width ≥ 1` removes at least
one character from the chunk stack, so `fuel = chunksLen chunks + 1` computes
the loop to completion. -/
def wrapChunksGo (width : Nat) : Nat → Bool → List (List Char) → List (List Char)
  | 0, _, _ => []
  | fuel + 1, first, chunks =>
    match chunks with
    | [] => []
    | _ :: _ =>
      match buildLine width first chunks with
      | (some line, rest) => line :: wrapChunksGo width fuel false rest
      | (none, rest) => wrapChunksGo width fuel first rest

/-- `textwrap.wrap(text, width)` with default options, on `List Char`.
Python raises `ValueError` for `width ≤ 0`; the pipeline only calls this with
`width = max(1, …) ≥ 1`, and this model returns `[]` for `width = 0`. -/
def pyWrap (text : List Char) (width : Nat) : List (List Char) :=
  if width = 0 then []
  else
    let chunks := splitChunks (munge text)
    wrapChunksGo width (chunksLen chunks + 1) true chunks

/-! ## App constants and the text-preparation stage (lines 33-35, 47-54) -/

def MAX_CHARS : Nat := 400

def FRAME_SKIP : Nat := 2

/-- Lines 47-49 (with `OVERLAY_SCALE = 0.5`, so `int(width * 0.5) = width / 2`
and `int(font_size * 0.5) = font_size / 2` on naturals):
`usable_width = max(scaled_size[0] - 40, 100)`,
`avg_char_width = max(scaled_font_size // 2, 1)`,
`max_chars_per_line = max(1, usable_width // avg_char_width)`.
Python's possibly negative `scaled_size[0] - 40` is dominated by the
`max(…, 100)`, so truncated subtraction agrees. -/
def maxCharsPerLineOf (size : Nat × Nat) (fontSize : Nat) : Nat :=
  let scaledW := size.1 / 2
  let scaledFontSize := fontSize / 2
  let usableWidth := max (scaledW - 40) 100
  let avgCharWidth := max (scaledFontSize / 2) 1
  max 1 (usableWidth / avgCharWidth)

/-- Lines 51-52: `wrapped_lines = textwrap.wrap(text, width=max_chars_per_line)`
followed by `full_text = "\n".join(wrapped_lines)[:MAX_CHARS]`.  The raw text
is wrapped in full; the only truncation is applied to the joined string. -/
def fullTextOf (size : Nat × Nat) (fontSize : Nat) (text : String) : List Char :=
  (List.intercalate ['\n']
    (pyWrap text.data (maxCharsPerLineOf size fontSize))).take MAX_CHARS

/-! ## The glyph canvas renderer (lines 58-89) -/

/-- A PIL font, reduced to the two metric queries the code makes:
`font.getbbox(line)` and `draw.textbbox((0, 0), line, font=font)`, each
returning a 4-tuple `(x0, y0, x1, y1)`. -/
structure PILFont where
  getbbox : List Char → Int × Int × Int × Int
  textbbox : List Char → Int × Int × Int × Int

/-- The resampling filter passed to `img.resize`. -/
inductive Resample
  | lanczos
deriving DecidableEq, Repr

/-- A PIL image, tracked by its pixel dimensions, the dimensions of the canvas
it was resized from, and the resampling filter of the last resize. -/
structure Img where
  width : Nat
  height : Nat
  srcWidth : Nat
  srcHeight : Nat
  resampledWith : Option Resample
deriving DecidableEq, Repr

/-- `Image.new('RGBA', (w, h), (0, 0, 0, 0))`. -/
def imageNew (w h : Nat) : Img :=
  { width := w, height := h, srcWidth := w, srcHeight := h, resampledWith := none }

/-- `img.resize((w, h), resample=r)`. -/
def imageResize (img : Img) (w h : Nat) (r : Resample) : Img :=
  { width := w, height := h, srcWidth := img.width, srcHeight := img.height,
    resampledWith := some r }

/-- One `draw.text((x, y), line, font=font, fill=color)` call. -/
structure DrawCall where
  x : Int
  y : Int
  line : List Char
  color : String
deriving DecidableEq, Repr

/-- Python `range(a, b)` over integers. -/
def pyRangeI (a b : Int) : List Int :=
  (List.range (b - a).toNat).map fun (k : Nat) => a + (k : Int)

/-- Lines 77-83: the outline double loop
`for dx in range(-t, t+1): for dy in range(-t, t+1): if dx == 0 and dy == 0:
continue; draw.text((x+dx, y+dy), line, fill=outline_color)` followed by
line 83's fill draw `draw.text((x, y), line, fill=text_color)`. -/
def lineDrawCalls (x y : Int) (line : List Char) (thickness : Nat)
    (outlineColor textColor : String) : List DrawCall :=
  ((pyRangeI (-(thickness : Int)) ((thickness : Int) + 1)).flatMap fun dx =>
    (pyRangeI (-(thickness : Int)) ((thickness : Int) + 1)).filterMap fun dy =>
      if dx = 0 ∧ dy = 0 then none
      else some { x := x + dx, y := y + dy, line := line, color := outlineColor })
  ++ [{ x := x, y := y, line := line, color := textColor }]

/-- Python `current_text.split("\n")` (keeps empty pieces). -/
def splitNL : List Char → List (List Char)
  | [] => [[]]
  | c :: rest =>
    let r := splitNL rest
    if c = '\n' then [] :: r
    else (c :: r.headI) :: r.tail

/-- Lines 64-66: `total_text_height = sum(font.getbbox(line)[3] if line.strip()
else scaled_font_size // 2 for line in lines)`. -/
def totalTextHeight (font : PILFont) (scaledFontSize : Nat)
    (lines : List (List Char)) : Int :=
  (lines.map fun line =>
    if chunkIsWS line then ((scaledFontSize / 2 : Nat) : Int)
    else (font.getbbox line).2.2.2).sum

/-- Lines 69-84: the per-line loop.  Whitespace-only lines advance `y` by
`scaled_font_size // 2` without drawing; other lines are centered using the
measured width (`bbox[2] - bbox[0]`, floor division as in Python `//`), drawn
with outline and fill, and advance `y` by `bbox[3] - bbox[1]`. -/
def renderLines (font : PILFont) (scaledW scaledFontSize thickness : Nat)
    (outlineColor textColor : String) : Int → List (List Char) → List DrawCall
  | _, [] => []
  | y, line :: rest =>
    if chunkIsWS line then
      renderLines font scaledW scaledFontSize thickness outlineColor textColor
        (y + ((scaledFontSize / 2 : Nat) : Int)) rest
    else
      let bbox := font.textbbox line
      let lineWidth := bbox.2.2.1 - bbox.1
      let x := ((scaledW : Int) - lineWidth).fdiv 2
      lineDrawCalls x y line thickness outlineColor textColor ++
        renderLines font scaledW scaledFontSize thickness outlineColor textColor
          (y + (bbox.2.2.2 - bbox.2.1)) rest

/-- One rendered overlay frame: the resized image and the draw calls made on
the half-scale canvas. -/
structure Frame where
  img : Img
  calls : List DrawCall
deriving DecidableEq, Repr

/-- Lines 59-86 for one reveal step: new transparent canvas at the scaled
size, split the current prefix on newlines, vertically center the text block
(floor division, line 67), render the lines, then upscale the canvas to the
base video size with LANCZOS resampling (line 86). -/
def renderFrame (font : PILFont) (scaledW scaledH scaledFontSize thickness : Nat)
    (outlineColor textColor : String) (targetW targetH : Nat)
    (currentText : List Char) : Frame :=
  let img := imageNew scaledW scaledH
  let lines := splitNL currentText
  let totalH := totalTextHeight font scaledFontSize lines
  let y0 := ((scaledH : Int) - totalH).fdiv 2
  { img := imageResize img targetW targetH Resample.lanczos
    calls := renderLines font scaledW scaledFontSize thickness outlineColor
      textColor y0 lines }

/-! ## The frame-sequence assembler (`generate_typewriter_clips`, lines 37-91) -/

/-- One `ImageClip(frame).set_duration(char_duration)`: the rendered frame, the
revealed text prefix it shows, and its duration in seconds. -/
structure TClip where
  frame : Frame
  currentText : List Char
  duration : ℚ
deriving DecidableEq, Repr

/-- Lines 42-45: `try: font = ImageFont.truetype(font_path, scaled_font_size)
except: font = ImageFont.load_default()`.  The outcome of the load attempt is
a parameter; a bare `except` catches every failure. -/
def fontOrDefault (attempt : Except String PILFont) (defaultFont : PILFont) :
    PILFont :=
  match attempt with
  | .ok f => f
  | .error _ => defaultFont

/-- Line 55's reveal-step count `max(1, num_chars // FRAME_SKIP)` (the
divisor, clamped away from zero). -/
def stepCount (n : Nat) : Nat := max 1 (n / FRAME_SKIP)

/-- Line 55, the timing allocator:
`char_duration = duration / max(1, num_chars // FRAME_SKIP)`. -/
def charDurationOf (duration : ℚ) (n : Nat) : ℚ := duration / (stepCount n : ℚ)

/-- The number of reveal frames line 58 generates:
`len(range(1, n + 1, FRAME_SKIP)) = ⌈n / FRAME_SKIP⌉`. -/
def frameCount (n : Nat) : Nat := (n + FRAME_SKIP - 1) / FRAME_SKIP

/-- Line 58's loop header `range(1, num_chars + 1, FRAME_SKIP)`:
`⌈n / s⌉` values `1, 1 + s, 1 + 2s, …` (for `s ≥ 1`). -/
def revealIdxs (n s : Nat) : List Nat :=
  List.range' 1 ((n + s - 1) / s) s

/-- The reveal index of the loop's final iteration (for `n ≥ 1`): the largest
`1 + FRAME_SKIP·k` not exceeding `n`. -/
def lastRevealIdx (n : Nat) : Nat := 1 + FRAME_SKIP * ((n - 1) / FRAME_SKIP)

/-- `generate_typewriter_clips` (lines 37-91): wrap and truncate the text,
allocate the per-step duration `duration / max(1, num_chars // FRAME_SKIP)`
(line 55), and render one clip per reveal index. -/
def generate_typewriter_clips (fontAttempt : Except String PILFont)
    (defaultFont : PILFont) (text : String) (duration : ℚ) (size : Nat × Nat)
    (fontSize : Nat) (textColor outlineColor : String)
    (outlineThickness : Nat) : List TClip :=
  let scaledW := size.1 / 2
  let scaledH := size.2 / 2
  let scaledFontSize := fontSize / 2
  let font := fontOrDefault fontAttempt defaultFont
  let fullText := fullTextOf size fontSize text
  let numChars := fullText.length
  let charDuration := charDurationOf duration numChars
  (revealIdxs numChars FRAME_SKIP).map fun i =>
    let currentText := fullText.take i
    { frame := renderFrame font scaledW scaledH scaledFontSize outlineThickness
        outlineColor textColor size.1 size.2 currentText
      currentText := currentText
      duration := charDuration }

/-! ## The pipeline (`overlay_text_on_video`, lines 93-116) -/

/-- A moviepy video clip, reduced to the attributes the code reads. -/
structure Clip where
  width : Nat
  height : Nat
  duration : ℚ
  fps : ℚ
deriving DecidableEq, Repr

/-- Line 96, `video.resize(height=720)`: scale to height 720 preserving the
aspect ratio (the width is modelled with floor division; the downstream code
uses the resulting size only as an opaque pair).  Duration and fps are
unchanged. -/
def resizeHeight720 (c : Clip) : Clip :=
  { c with width := c.width * 720 / c.height, height := 720 }

/-- moviepy `concatenate_videoclips`: on an empty clip list it raises
`ValueError: max() arg is an empty sequence` (it takes the maximum of the clip
sizes); on a nonempty list the concatenation is modelled by the clip sequence
itself. -/
def concatenate_videoclips (clips : List TClip) : Except String (List TClip) :=
  match clips with
  | [] => Except.error "max() arg is an empty sequence"
  | _ => Except.ok clips

/-- `clip.set_duration(d)`. -/
def set_duration (c : TClip) (d : ℚ) : TClip := { c with duration := d }

/-- The composite result: the (downscaled) base video and the overlay frame
sequence composited onto it. -/
structure OverlayOutput where
  base : Clip
  overlay : List TClip
deriving DecidableEq, Repr

/-- `overlay_text_on_video` (lines 93-116): downscale the base video, generate
the reveal clips, concatenate them (line 106; the Python `text_clips[-1]`
IndexError branch is kept for fidelity although concatenation fails first on
an empty list), append the hold-extension frame when the video outlasts the
animation (lines 107-109), and wrap any raised error in
`RuntimeError("Video generation failed: …")` (lines 115-116). -/
def overlay_text_on_video (inputVideo : Clip) (text : String)
    (animationDuration : ℚ) (fontAttempt : Except String PILFont)
    (defaultFont : PILFont) (fontSize : Nat) (textColor outlineColor : String)
    (outlineThickness : Nat) : Except String OverlayOutput :=
  let video := resizeHeight720 inputVideo
  let text_clips := generate_typewriter_clips fontAttempt defaultFont text
    animationDuration (video.width, video.height) fontSize textColor
    outlineColor outlineThickness
  match concatenate_videoclips text_clips with
  | Except.error e => Except.error ("Video generation failed: " ++ e)
  | Except.ok text_anim =>
    if animationDuration < video.duration then
      match text_clips.getLast? with
      | none => Except.error "Video generation failed: list index out of range"
      | some lastClip =>
        Except.ok
          { base := video
            overlay := text_anim ++
              [set_duration lastClip (video.duration - animationDuration)] }
    else
      Except.ok { base := video, overlay := text_anim }

/-- The overlay sequence the pipeline composites (empty when the pipeline
fails). -/
def overlayClipsOf (inputVideo : Clip) (text : String) (animationDuration : ℚ)
    (fontAttempt : Except String PILFont) (defaultFont : PILFont)
    (fontSize : Nat) (textColor outlineColor : String)
    (outlineThickness : Nat) : List TClip :=
  match overlay_text_on_video inputVideo text animationDuration fontAttempt
    defaultFont fontSize textColor outlineColor outlineThickness with
  | Except.ok o => o.overlay
  | Except.error _ => []

/-- Total duration of an overlay sequence. -/
def totalDur (clips : List TClip) : ℚ := (clips.map TClip.duration).sum

/-- A concrete font for witnesses: every glyph 6 px wide, ascent 10. -/
def testFont : PILFont :=
  { getbbox := fun line => (0, 0, 6 * line.length, 10)
    textbbox := fun line => (0, 0, 6 * line.length, 10) }

/-- The post-downscale base-video size `video.size` read on line 98. -/
def videoSizeOf (iv : Clip) : Nat × Nat :=
  ((resizeHeight720 iv).width, (resizeHeight720 iv).height)

/-- The `text_clips` list built on lines 99-104: `generate_typewriter_clips`
at the post-downscale video size. -/
def genClips (iv : Clip) (text : String) (animationDuration : ℚ)
    (fontAttempt : Except String PILFont) (defaultFont : PILFont)
    (fontSize : Nat) (textColor outlineColor : String)
    (outlineThickness : Nat) : List TClip :=
  generate_typewriter_clips fontAttempt defaultFont text animationDuration
    (videoSizeOf iv) fontSize textColor outlineColor outlineThickness

/-- The offsets `(dx, dy)` at which the outline loop (lines 77-81) draws, in
loop order. -/
def outlineOffsets (t : Nat) : List (Int × Int) :=
  (pyRangeI (-(t : Int)) ((t : Int) + 1)).flatMap fun dx =>
    (pyRangeI (-(t : Int)) ((t : Int) + 1)).filterMap fun dy =>
      if dx = 0 ∧ dy = 0 then none else some (dx, dy)

/-- Modelled from the spec (claim C2's reading of the Text Wrapper contract):
truncate the raw text to `MAX_CHARS` BEFORE wrapping, then wrap, join and
truncate a second time ("defensive double truncation").  The code
(lines 51-52) performs no pre-wrap truncation; this definition exists to be
compared against `fullTextOf`. -/
def fullTextDoubleTruncated (size : Nat × Nat) (fontSize : Nat)
    (text : String) : List Char :=
  (List.intercalate ['\n']
    (pyWrap (text.data.take MAX_CHARS)
      (maxCharsPerLineOf size fontSize))).take MAX_CHARS

/-- A 402-character input exceeding `MAX_CHARS`: the word `b`, 400 spaces,
then the word `c` (the second word lies beyond the 400-character mark). -/
def c2text : String := String.mk ('b' :: List.replicate 400 ' ' ++ ['c'])

/-- A concrete base video for witnesses: 1280×720, 10 s, 30 fps. -/
def sampleVideo : Clip := { width := 1280, height := 720, duration := 10, fps := 30 }

/-- Invariant carried through the wrapper: a chunk is nonempty and contains no
newline (the munge step has replaced every newline by a space). -/
def goodChunk (c : List Char) : Prop := c ≠ [] ∧ '\n' ∉ c

/-! ## Lemmas: the outline offset enumeration -/

theorem mem_pyRangeI {a b i : Int} : i ∈ pyRangeI a b ↔ a ≤ i ∧ i < b := by
  unfold pyRangeI
  simp only [List.mem_map, List.mem_range]
  constructor
  · rintro ⟨k, hk, rfl⟩
    rw [Int.lt_toNat] at hk
    omega
  · rintro ⟨h1, h2⟩
    have e : (((i - a).toNat) : Int) = i - a := Int.toNat_of_nonneg (by omega)
    refine ⟨(i - a).toNat, ?_, ?_⟩
    · rw [Int.lt_toNat, e]
      omega
    · show a + ((i - a).toNat : Int) = i
      rw [e]
      omega

theorem nodup_pyRangeI (a b : Int) : (pyRangeI a b).Nodup := by
  unfold pyRangeI
  exact (List.nodup_range _).map (fun x y h => by omega)

theorem mem_outlineOffsets {t : Nat} {p : Int × Int} :
    p ∈ outlineOffsets t ↔
      -(t : Int) ≤ p.1 ∧ p.1 ≤ (t : Int) ∧ -(t : Int) ≤ p.2 ∧ p.2 ≤ (t : Int) ∧
        p ≠ (0, 0) := by
  unfold outlineOffsets
  simp only [List.mem_flatMap, List.mem_filterMap, mem_pyRangeI]
  constructor
  · rintro ⟨dx, ⟨ha, hb⟩, dy, ⟨⟨hc, hd⟩, he⟩⟩
    by_cases h : dx = 0 ∧ dy = 0
    · rw [if_pos h] at he
      cases he
    · rw [if_neg h] at he
      obtain rfl : (dx, dy) = p := Option.some.inj he
      refine ⟨ha, by omega, hc, by omega, ?_⟩
      simp only [ne_eq, Prod.mk.injEq, not_and]
      intro h1 h2
      exact h ⟨h1, h2⟩
  · rintro ⟨h1, h2, h3, h4, h5⟩
    refine ⟨p.1, ⟨h1, by omega⟩, p.2, ⟨⟨h3, by omega⟩, ?_⟩⟩
    rw [if_neg, Prod.mk.eta]
    intro hh
    apply h5
    obtain ⟨u, v⟩ := p
    simp only [Prod.mk.injEq]
    exact hh

theorem nodup_outlineOffsets (t : Nat) : (outlineOffsets t).Nodup := by
  unfold outlineOffsets
  rw [List.nodup_flatMap]
  constructor
  · intro dx _
    refine List.Nodup.filterMap ?_ (nodup_pyRangeI _ _)
    intro a a' b hb hb'
    rw [Option.mem_def] at hb hb'
    by_cases h : dx = 0 ∧ a = 0
    · rw [if_pos h] at hb
      cases hb
    · rw [if_neg h] at hb
      by_cases h' : dx = 0 ∧ a' = 0
      · rw [if_pos h'] at hb'
        cases hb'
      · rw [if_neg h'] at hb'
        have e : (dx, a) = (dx, a') :=
          (Option.some.inj hb).trans (Option.some.inj hb').symm
        exact (Prod.mk.injEq _ _ _ _ ▸ e).2
  · refine List.Pairwise.imp ?_ (nodup_pyRangeI _ _)
    intro dx dx' hne b hb hb'
    simp only [List.mem_filterMap] at hb hb'
    obtain ⟨dy, -, hsome⟩ := hb
    obtain ⟨dy', -, hsome'⟩ := hb'
    have h1 : b.1 = dx := by
      by_cases h : dx = 0 ∧ dy = 0
      · rw [if_pos h] at hsome
        cases hsome
      · rw [if_neg h] at hsome
        cases Option.some.inj hsome
        rfl
    have h2 : b.1 = dx' := by
      by_cases h : dx' = 0 ∧ dy' = 0
      · rw [if_pos h] at hsome'
        cases hsome'
      · rw [if_neg h] at hsome'
        cases Option.some.inj hsome'
        rfl
    exact hne (h1 ▸ h2)

/-- **C7** (confirmed): for outline thickness K and a rendered non-whitespace
line placed at (x, y), the renderer's draw calls are: the outline color at
exactly the offsets of [−K, K]² minus the origin (the offset list is
duplicate-free, so each offset is drawn exactly once), followed by exactly one
fill-color draw at offset (0, 0) which is the last call; K = 0 yields zero
outline draws. -/
theorem claim7_outline_offsets (x y : Int) (line : List Char) (t : Nat)
    (oc tc : String) :
    (lineDrawCalls x y line t oc tc =
      ((outlineOffsets t).map fun p =>
        { x := x + p.1, y := y + p.2, line := line, color := oc }) ++
      [{ x := x, y := y, line := line, color := tc }]) ∧
    (∀ p : Int × Int, p ∈ outlineOffsets t ↔
      -(t : Int) ≤ p.1 ∧ p.1 ≤ (t : Int) ∧ -(t : Int) ≤ p.2 ∧ p.2 ≤ (t : Int) ∧
        p ≠ (0, 0)) ∧
    (outlineOffsets t).Nodup ∧
    outlineOffsets 0 = [] ∧
    (lineDrawCalls x y line t oc tc).getLast? =
      some { x := x, y := y, line := line, color := tc } := by
  have heq : lineDrawCalls x y line t oc tc =
      ((outlineOffsets t).map fun p =>
        { x := x + p.1, y := y + p.2, line := line, color := oc }) ++
      [{ x := x, y := y, line := line, color := tc }] := by
    unfold lineDrawCalls outlineOffsets
    congr 1
    rw [List.map_flatMap]
    congr 1
    funext dx
    rw [List.map_filterMap]
    congr 1
    funext dy
    by_cases h : dx = 0 ∧ dy = 0
    · rw [if_pos h, if_pos h]
      rfl
    · rw [if_neg h, if_neg h]
      rfl
  refine ⟨heq, fun p => mem_outlineOffsets, nodup_outlineOffsets t, by decide, ?_⟩
  unfold lineDrawCalls
  exact List.getLast?_concat _

/-! ## Lemmas: the generated clip list -/

theorem generate_length (fa : Except String PILFont) (dflt : PILFont)
    (text : String) (d : ℚ) (size : Nat × Nat) (fs : Nat) (tc oc : String)
    (th : Nat) :
    (generate_typewriter_clips fa dflt text d size fs tc oc th).length =
      frameCount (fullTextOf size fs text).length := by
  unfold generate_typewriter_clips revealIdxs frameCount
  rw [List.length_map, List.length_range']

theorem generate_durations (fa : Except String PILFont) (dflt : PILFont)
    (text : String) (d : ℚ) (size : Nat × Nat) (fs : Nat) (tc oc : String)
    (th : Nat) :
    (generate_typewriter_clips fa dflt text d size fs tc oc th).map TClip.duration =
      List.replicate (frameCount (fullTextOf size fs text).length)
        (charDurationOf d (fullTextOf size fs text).length) := by
  unfold generate_typewriter_clips
  rw [List.map_map]
  have h := List.map_const'
    (revealIdxs (fullTextOf size fs text).length FRAME_SKIP)
    (charDurationOf d (fullTextOf size fs text).length)
  rw [show (revealIdxs (fullTextOf size fs text).length FRAME_SKIP).length =
      frameCount (fullTextOf size fs text).length from by
        unfold revealIdxs frameCount
        exact List.length_range' _ _ _] at h
  exact h

theorem totalDur_generate (fa : Except String PILFont) (dflt : PILFont)
    (text : String) (d : ℚ) (size : Nat × Nat) (fs : Nat) (tc oc : String)
    (th : Nat) :
    totalDur (generate_typewriter_clips fa dflt text d size fs tc oc th) =
      (frameCount (fullTextOf size fs text).length : ℚ) *
        charDurationOf d (fullTextOf size fs text).length := by
  unfold totalDur
  rw [generate_durations, List.sum_replicate, nsmul_eq_mul]

/-! ## Lemmas: timing arithmetic -/

theorem stepCount_pos (n : Nat) : 0 < stepCount n := by
  unfold stepCount
  omega

theorem timing_core (D : ℚ) (hD : 0 < D) (n : Nat) :
    |((frameCount n : ℚ)) * charDurationOf D n - D| ≤ charDurationOf D n := by
  have hs : 0 < stepCount n := stepCount_pos n
  have hsQ : (0 : ℚ) < ((stepCount n : ℕ) : ℚ) := by exact_mod_cast hs
  have hd : 0 < charDurationOf D n := div_pos hD hsQ
  have hcast : ((stepCount n : ℕ) : ℚ) * charDurationOf D n = D := by
    unfold charDurationOf
    field_simp
  have hcase : frameCount n = stepCount n ∨ frameCount n = stepCount n + 1 ∨
      (frameCount n = 0 ∧ stepCount n = 1) := by
    unfold frameCount stepCount FRAME_SKIP
    omega
  rcases hcase with h | h | ⟨h1, h2⟩
  · rw [h, hcast, sub_self, abs_zero]
    exact le_of_lt hd
  · rw [h]
    push_cast
    rw [add_mul, one_mul, hcast, add_sub_cancel_left, abs_of_pos hd]
  · rw [h1]
    simp only [Nat.cast_zero, zero_mul, zero_sub, abs_neg]
    rw [abs_of_pos hD]
    unfold charDurationOf
    rw [h2]
    simp

/-- **C5** (confirmed): the timing allocator's divisor `max(1, C // FRAME_SKIP)`
is positive for every character count C, including C = 0 (no division by
zero); every generated reveal clip carries the per-step duration
`D / max(1, C // FRAME_SKIP)`; and the number of generated frames times the
per-step duration differs from D by at most one per-step duration. -/
theorem claim5_timing_allocator (D : ℚ) (hD : 0 < D)
    (fa : Except String PILFont) (dflt : PILFont) (text : String)
    (size : Nat × Nat) (fs : Nat) (tc oc : String) (th : Nat) :
    0 < stepCount (fullTextOf size fs text).length ∧
    (generate_typewriter_clips fa dflt text D size fs tc oc th).map TClip.duration =
      List.replicate (frameCount (fullTextOf size fs text).length)
        (charDurationOf D (fullTextOf size fs text).length) ∧
    |((generate_typewriter_clips fa dflt text D size fs tc oc th).length : ℚ) *
        charDurationOf D (fullTextOf size fs text).length - D| ≤
      charDurationOf D (fullTextOf size fs text).length :=
  ⟨stepCount_pos _, generate_durations fa dflt text D size fs tc oc th, by
    rw [generate_length]
    exact timing_core D hD _⟩

/-- Witness for C5 at the spec's own scenario: text "Hello" (5 characters
after wrapping), D = 5 s, giving 3 frames of 5/2 s each. -/
theorem claim5_witness :
    0 < stepCount (fullTextOf (1280, 720) 48 "Hello").length ∧
    (generate_typewriter_clips (Except.ok testFont) testFont "Hello" 5
      (1280, 720) 48 "#FFFFFF" "#000000" 2).map TClip.duration =
      List.replicate (frameCount (fullTextOf (1280, 720) 48 "Hello").length)
        (charDurationOf 5 (fullTextOf (1280, 720) 48 "Hello").length) ∧
    |((generate_typewriter_clips (Except.ok testFont) testFont "Hello" 5
        (1280, 720) 48 "#FFFFFF" "#000000" 2).length : ℚ) *
        charDurationOf 5 (fullTextOf (1280, 720) 48 "Hello").length - 5| ≤
      charDurationOf 5 (fullTextOf (1280, 720) 48 "Hello").length :=
  claim5_timing_allocator 5 (by norm_num) (Except.ok testFont) testFont "Hello"
    (1280, 720) 48 "#FFFFFF" "#000000" 2

/-- **C8** (confirmed): when the font load fails (lines 42-45), the renderer
substitutes the built-in default font, the generator's output is identical to
a run whose load succeeded with the default font, and the full list of frames
is produced — modelled as a total function, the operation never raises on
font unavailability. -/
theorem claim8_font_fallback (e : String) (defaultFont : PILFont)
    (text : String) (d : ℚ) (size : Nat × Nat) (fs : Nat) (tc oc : String)
    (th : Nat) :
    fontOrDefault (Except.error e) defaultFont = defaultFont ∧
    generate_typewriter_clips (Except.error e) defaultFont text d size fs tc oc th =
      generate_typewriter_clips (Except.ok defaultFont) defaultFont text d size
        fs tc oc th ∧
    (generate_typewriter_clips (Except.error e) defaultFont text d size fs tc
        oc th).length = frameCount (fullTextOf size fs text).length :=
  ⟨rfl, rfl, generate_length _ _ _ _ _ _ _ _ _⟩

/-- **C2** (corrected, provable part): the wrapper stage truncates the joined
wrapped text to at most `MAX_CHARS` characters — a single truncation, applied
after joining. -/
theorem claim2_single_truncation (size : Nat × Nat) (fs : Nat) (text : String) :
    (fullTextOf size fs text).length ≤ MAX_CHARS := by
  unfold fullTextOf
  rw [List.length_take]
  exact Nat.min_le_left _ _

set_option maxRecDepth 100000 in
set_option maxHeartbeats 4000000 in
/-- **C2 counterexample**: on the 402-character input `"b" + 400 spaces +
"c"` the code wraps the full text — the word `c` beyond the 400-character
mark survives, giving `"b\nc"` — while the spec's double truncation would cut
`c` away before wrapping, giving `"b"`. -/
theorem claim2_counterexample :
    fullTextOf (1280, 720) 48 c2text ≠
      fullTextDoubleTruncated (1280, 720) 48 c2text := by
  decide

/-- **C1** (code bug): on input text that wraps to the empty string (here a
single space, which the UI guard `if uploaded_file and text_input` does not
filter), the Frame Sequence Assembler itself succeeds with an empty clip
list, but the pipeline then crashes: `concatenate_videoclips([])` raises and
`overlay_text_on_video` reports the wrapped failure instead of returning the
resized input video with no overlay. -/
theorem claim1_empty_text_pipeline_crash :
    generate_typewriter_clips (Except.ok testFont) testFont " " 5 (1280, 720)
      48 "#FFFFFF" "#000000" 2 = [] ∧
    overlay_text_on_video sampleVideo " " 5 (Except.ok testFont) testFont 48
      "#FFFFFF" "#000000" 2 =
      Except.error "Video generation failed: max() arg is an empty sequence" :=
  ⟨rfl, rfl⟩

/-! ## Lemmas: pipeline structure -/

theorem frameCount_pos {n : Nat} (hn : n ≠ 0) : 0 < frameCount n := by
  unfold frameCount FRAME_SKIP
  omega

theorem stepCount_le_frameCount {n : Nat} (hn : n ≠ 0) :
    stepCount n ≤ frameCount n := by
  unfold stepCount frameCount FRAME_SKIP
  omega

theorem stepCount_mul_charDuration (D : ℚ) (n : Nat) :
    ((stepCount n : ℕ) : ℚ) * charDurationOf D n = D := by
  have hs : 0 < stepCount n := stepCount_pos n
  have hsQ : ((stepCount n : ℕ) : ℚ) ≠ 0 := by
    exact_mod_cast Nat.pos_iff_ne_zero.mp hs
  unfold charDurationOf
  field_simp

theorem totalDur_append (a b : List TClip) :
    totalDur (a ++ b) = totalDur a + totalDur b := by
  unfold totalDur
  rw [List.map_append, List.sum_append]

theorem genClips_ne_nil (iv : Clip) (text : String) (D : ℚ)
    (fa : Except String PILFont) (dflt : PILFont) (fs : Nat) (tc oc : String)
    (th : Nat) (hne : (fullTextOf (videoSizeOf iv) fs text).length ≠ 0) :
    genClips iv text D fa dflt fs tc oc th ≠ [] := by
  intro h
  have hl := generate_length fa dflt text D (videoSizeOf iv) fs tc oc th
  rw [show genClips iv text D fa dflt fs tc oc th =
    generate_typewriter_clips fa dflt text D (videoSizeOf iv) fs tc oc th from
      rfl] at h
  rw [h] at hl
  have := frameCount_pos hne
  simp at hl
  omega

theorem D_le_totalDur_genClips (iv : Clip) (text : String) (D : ℚ)
    (fa : Except String PILFont) (dflt : PILFont) (fs : Nat) (tc oc : String)
    (th : Nat) (hne : (fullTextOf (videoSizeOf iv) fs text).length ≠ 0)
    (hD : 0 < D) :
    D ≤ totalDur (genClips iv text D fa dflt fs tc oc th) := by
  have ht : totalDur (genClips iv text D fa dflt fs tc oc th) =
      (frameCount (fullTextOf (videoSizeOf iv) fs text).length : ℚ) *
        charDurationOf D (fullTextOf (videoSizeOf iv) fs text).length :=
    totalDur_generate fa dflt text D (videoSizeOf iv) fs tc oc th
  rw [ht]
  set n := (fullTextOf (videoSizeOf iv) fs text).length with hn
  have hs : 0 < stepCount n := stepCount_pos n
  have hsQ : (0 : ℚ) < ((stepCount n : ℕ) : ℚ) := by exact_mod_cast hs
  have hd : 0 < charDurationOf D n := div_pos hD hsQ
  have hle : ((stepCount n : ℕ) : ℚ) ≤ ((frameCount n : ℕ) : ℚ) := by
    exact_mod_cast stepCount_le_frameCount hne
  calc D = ((stepCount n : ℕ) : ℚ) * charDurationOf D n :=
        (stepCount_mul_charDuration D n).symm
    _ ≤ ((frameCount n : ℕ) : ℚ) * charDurationOf D n :=
        mul_le_mul_of_nonneg_right hle (le_of_lt hd)

theorem overlayClipsOf_eq (iv : Clip) (text : String) (D : ℚ)
    (fa : Except String PILFont) (dflt : PILFont) (fs : Nat) (tc oc : String)
    (th : Nat) (hne : genClips iv text D fa dflt fs tc oc th ≠ []) :
    overlayClipsOf iv text D fa dflt fs tc oc th =
      genClips iv text D fa dflt fs tc oc th ++
        (if D < iv.duration then
          ((genClips iv text D fa dflt fs tc oc th).getLast?.map
            (fun l => set_duration l (iv.duration - D))).toList
        else []) := by
  obtain ⟨c, rest, h⟩ := List.exists_cons_of_ne_nil hne
  have hg : generate_typewriter_clips fa dflt text D
      ((resizeHeight720 iv).width, (resizeHeight720 iv).height) fs tc oc th =
      genClips iv text D fa dflt fs tc oc th := rfl
  have hdur : (resizeHeight720 iv).duration = iv.duration := rfl
  unfold overlayClipsOf overlay_text_on_video
  dsimp only
  rw [hg, h]
  dsimp only [concatenate_videoclips]
  rw [hdur]
  by_cases hd : D < iv.duration
  · rw [if_pos hd, if_pos hd,
      List.getLast?_eq_getLast (c :: rest) (List.cons_ne_nil c rest)]
    dsimp only
    simp
  · rw [if_neg hd, if_neg hd]
    dsimp only
    simp

/-- **C6** (confirmed): for nonempty wrapped text, D > 0 and base video
duration V: if V ≤ D no hold-extension frame is appended (the overlay is the
generated clip list unchanged); if V > D exactly one frame is appended, with
duration V − D, and the overlay's total duration is at least V; in both cases
the total duration is at least min(D, V). -/
theorem claim6_hold_extension (iv : Clip) (text : String) (D : ℚ)
    (fa : Except String PILFont) (dflt : PILFont) (fs : Nat) (tc oc : String)
    (th : Nat) (hne : (fullTextOf (videoSizeOf iv) fs text).length ≠ 0)
    (hD : 0 < D) :
    (iv.duration ≤ D →
      overlayClipsOf iv text D fa dflt fs tc oc th =
        genClips iv text D fa dflt fs tc oc th) ∧
    (D < iv.duration →
      (overlayClipsOf iv text D fa dflt fs tc oc th).length =
        (genClips iv text D fa dflt fs tc oc th).length + 1 ∧
      ((overlayClipsOf iv text D fa dflt fs tc oc th).getLast?).map
        TClip.duration = some (iv.duration - D) ∧
      iv.duration ≤ totalDur (overlayClipsOf iv text D fa dflt fs tc oc th)) ∧
    min D iv.duration ≤ totalDur (overlayClipsOf iv text D fa dflt fs tc oc th) := by
  have hgn := genClips_ne_nil iv text D fa dflt fs tc oc th hne
  have heq := overlayClipsOf_eq iv text D fa dflt fs tc oc th hgn
  have hDt := D_le_totalDur_genClips iv text D fa dflt fs tc oc th hne hD
  obtain ⟨lc, hlc⟩ : ∃ lc, (genClips iv text D fa dflt fs tc oc th).getLast? =
      some lc := ⟨_, List.getLast?_eq_getLast _ hgn⟩
  rw [hlc] at heq
  simp only [Option.map_some', Option.toList_some] at heq
  have hext : totalDur [set_duration lc (iv.duration - D)] =
      iv.duration - D := by
    simp [totalDur, set_duration]
  constructor
  · intro hle
    rw [heq, if_neg (not_lt.mpr hle), List.append_nil]
  constructor
  · intro hd
    rw [heq, if_pos hd]
    refine ⟨by simp, by simp [set_duration], ?_⟩
    rw [totalDur_append, hext]
    linarith
  · rcases le_or_lt iv.duration D with hle | hd
    · rw [heq, if_neg (not_lt.mpr hle), List.append_nil]
      have h1 : min D iv.duration ≤ iv.duration := min_le_right _ _
      linarith
    · rw [heq, if_pos hd, totalDur_append, hext]
      have h1 : min D iv.duration ≤ iv.duration := min_le_right _ _
      linarith

/-- Witness for C6: base video 10 s, animation 5 s, text "Hello" — one
extension frame of duration 10 − 5 = 5 s is appended and the overlay covers
the full 10 s. -/
theorem claim6_witness :
    (overlayClipsOf sampleVideo "Hello" 5 (Except.ok testFont) testFont 48
        "#FFFFFF" "#000000" 2).length =
      (genClips sampleVideo "Hello" 5 (Except.ok testFont) testFont 48
        "#FFFFFF" "#000000" 2).length + 1 ∧
    ((overlayClipsOf sampleVideo "Hello" 5 (Except.ok testFont) testFont 48
        "#FFFFFF" "#000000" 2).getLast?).map TClip.duration =
      some (sampleVideo.duration - 5) ∧
    sampleVideo.duration ≤ totalDur (overlayClipsOf sampleVideo "Hello" 5
      (Except.ok testFont) testFont 48 "#FFFFFF" "#000000" 2) :=
  (claim6_hold_extension sampleVideo "Hello" 5 (Except.ok testFont) testFont
    48 "#FFFFFF" "#000000" 2 (by decide) (by norm_num)).2.1 (by decide)

/-! ## Lemmas: the final reveal index -/

theorem revealIdxs_getLast? {n : Nat} (hn : n ≠ 0) :
    (revealIdxs n FRAME_SKIP).getLast? = some (lastRevealIdx n) := by
  unfold revealIdxs lastRevealIdx
  have hk : (n + FRAME_SKIP - 1) / FRAME_SKIP = ((n - 1) / FRAME_SKIP) + 1 := by
    unfold FRAME_SKIP
    omega
  rw [hk, List.range'_concat, List.getLast?_concat]

theorem generate_getLast? (fa : Except String PILFont) (dflt : PILFont)
    (text : String) (d : ℚ) (size : Nat × Nat) (fs : Nat) (tc oc : String)
    (th : Nat) (hn : (fullTextOf size fs text).length ≠ 0) :
    ((generate_typewriter_clips fa dflt text d size fs tc oc th).getLast?).map
        TClip.currentText =
      some ((fullTextOf size fs text).take
        (lastRevealIdx (fullTextOf size fs text).length)) := by
  unfold generate_typewriter_clips
  rw [List.getLast?_map, revealIdxs_getLast? hn]
  rfl

/-- **C4** (corrected): whenever the hold-extension frame is appended, it is
the *last generated* reveal frame — the prefix of length
`1 + FRAME_SKIP·⌊(n−1)/FRAME_SKIP⌋` — which, with `FRAME_SKIP = 2`, equals the
whole wrapped text exactly when its length n is odd; for even n the held
frame is missing the final character. -/
theorem claim4_hold_frame (iv : Clip) (text : String) (D : ℚ)
    (fa : Except String PILFont) (dflt : PILFont) (fs : Nat) (tc oc : String)
    (th : Nat) (hne : (fullTextOf (videoSizeOf iv) fs text).length ≠ 0)
    (hVD : D < iv.duration) :
    ((overlayClipsOf iv text D fa dflt fs tc oc th).getLast?).map
        TClip.currentText =
      some ((fullTextOf (videoSizeOf iv) fs text).take
        (lastRevealIdx (fullTextOf (videoSizeOf iv) fs text).length)) ∧
    ((fullTextOf (videoSizeOf iv) fs text).length % 2 = 1 →
      (fullTextOf (videoSizeOf iv) fs text).take
        (lastRevealIdx (fullTextOf (videoSizeOf iv) fs text).length) =
        fullTextOf (videoSizeOf iv) fs text) ∧
    ((fullTextOf (videoSizeOf iv) fs text).length % 2 = 0 →
      (fullTextOf (videoSizeOf iv) fs text).take
        (lastRevealIdx (fullTextOf (videoSizeOf iv) fs text).length) ≠
        fullTextOf (videoSizeOf iv) fs text) := by
  have hgn := genClips_ne_nil iv text D fa dflt fs tc oc th hne
  have heq := overlayClipsOf_eq iv text D fa dflt fs tc oc th hgn
  have hg := generate_getLast? fa dflt text D (videoSizeOf iv) fs tc oc th hne
  obtain ⟨lc, hlc⟩ : ∃ lc, (genClips iv text D fa dflt fs tc oc th).getLast? =
      some lc := ⟨_, List.getLast?_eq_getLast _ hgn⟩
  rw [show (generate_typewriter_clips fa dflt text D (videoSizeOf iv) fs tc oc
    th) = genClips iv text D fa dflt fs tc oc th from rfl] at hg
  rw [hlc] at heq hg
  simp only [Option.map_some', Option.toList_some] at heq
  refine ⟨?_, ?_, ?_⟩
  · rw [heq, if_pos hVD, List.getLast?_concat]
    simpa [set_duration] using hg
  · intro hodd
    rw [show lastRevealIdx (fullTextOf (videoSizeOf iv) fs text).length =
      (fullTextOf (videoSizeOf iv) fs text).length from by
        unfold lastRevealIdx FRAME_SKIP
        omega]
    exact List.take_length _
  · intro heven
    intro hcontra
    have hlen := congrArg List.length hcontra
    rw [List.length_take] at hlen
    have : lastRevealIdx (fullTextOf (videoSizeOf iv) fs text).length <
        (fullTextOf (videoSizeOf iv) fs text).length := by
      unfold lastRevealIdx FRAME_SKIP
      omega
    omega

/-- **C4 counterexample**: text "ab" (wrapped length 2, even) with a 10 s
video and a 5 s animation: the hold-extension frame shows only "a" — the
final reveal step's prefix has length 1, not 2, so the held frame is not the
fully revealed text. -/
theorem claim4_counterexample :
    ((overlayClipsOf sampleVideo "ab" 5 (Except.ok testFont) testFont 48
        "#FFFFFF" "#000000" 2).getLast?).map TClip.currentText =
      some ['a'] ∧
    fullTextOf (videoSizeOf sampleVideo) 48 "ab" = ['a', 'b'] ∧
    (['a'] : List Char) ≠ ['a', 'b'] :=
  ⟨by decide, by decide, by decide⟩

/-- Witness for C4 (odd-length case): text "abc" with a 10 s video and 5 s
animation — the held frame is the fully revealed wrapped text. -/
theorem claim4_witness :
    ((overlayClipsOf sampleVideo "abc" 5 (Except.ok testFont) testFont 48
        "#FFFFFF" "#000000" 2).getLast?).map TClip.currentText =
      some (fullTextOf (videoSizeOf sampleVideo) 48 "abc") := by
  have h := claim4_hold_frame sampleVideo "abc" 5 (Except.ok testFont)
    testFont 48 "#FFFFFF" "#000000" 2 (by decide) (by decide)
  exact h.2.1 (by decide) ▸ h.1

/-! ## Lemmas: wrapper invariants -/

theorem chunksLen_nil : chunksLen [] = 0 := rfl

theorem chunksLen_cons (c : List Char) (cs : List (List Char)) :
    chunksLen (c :: cs) = c.length + chunksLen cs := by
  unfold chunksLen
  simp

theorem chunksLen_append (a b : List (List Char)) :
    chunksLen (a ++ b) = chunksLen a + chunksLen b := by
  unfold chunksLen
  simp

theorem length_flatten_eq (cs : List (List Char)) :
    cs.flatten.length = chunksLen cs := by
  rw [List.length_flatten]
  rfl

theorem dropTrailingWS_concat (ys : List (List Char)) (c : List Char) :
    dropTrailingWS (ys ++ [c]) = if chunkIsWS c then ys else ys ++ [c] := by
  unfold dropTrailingWS
  simp only [List.getLast?_concat]
  by_cases h : chunkIsWS c
  · rw [if_pos h, if_pos h, List.dropLast_concat]
  · rw [if_neg h, if_neg h]

theorem chunksLen_dropTrailingWS_le (cs : List (List Char)) :
    chunksLen (dropTrailingWS cs) ≤ chunksLen cs := by
  rcases List.eq_nil_or_concat cs with rfl | ⟨ys, c, rfl⟩
  · exact le_rfl
  · rw [List.concat_eq_append, dropTrailingWS_concat]
    by_cases h : chunkIsWS c
    · rw [if_pos h, chunksLen_append]
      omega
    · rw [if_neg h]

theorem dropTrailingWS_mem (cs : List (List Char)) :
    ∀ x ∈ dropTrailingWS cs, x ∈ cs := by
  rcases List.eq_nil_or_concat cs with rfl | ⟨ys, c, rfl⟩
  · intro x hx
    exact hx
  · rw [List.concat_eq_append, dropTrailingWS_concat]
    by_cases h : chunkIsWS c
    · rw [if_pos h]
      intro x hx
      exact List.mem_append.mpr (Or.inl hx)
    · rw [if_neg h]
      intro x hx
      exact hx

theorem dropLeadingWS_mem (first : Bool) (cs : List (List Char)) :
    ∀ x ∈ dropLeadingWS first cs, x ∈ cs := by
  intro x hx
  cases cs with
  | nil => exact hx
  | cons c rest =>
    unfold dropLeadingWS at hx
    dsimp only at hx
    by_cases h : (!first && chunkIsWS c) = true
    · rw [if_pos h] at hx
      exact List.mem_cons_of_mem _ hx
    · rw [if_neg h] at hx
      exact hx

theorem popFits_spec (width : Nat) (cs : List (List Char)) :
    ∀ acc,
      (popFits width acc cs).2.1 = acc + chunksLen (popFits width acc cs).1 ∧
      (acc ≤ width → (popFits width acc cs).2.1 ≤ width) ∧
      (∀ x, x ∈ (popFits width acc cs).1 ∨ x ∈ (popFits width acc cs).2.2 →
        x ∈ cs) := by
  induction cs with
  | nil =>
    intro acc
    refine ⟨by simp [popFits, chunksLen], fun h => h, ?_⟩
    intro x hx
    simp [popFits] at hx
  | cons c rest ih =>
    intro acc
    unfold popFits
    by_cases h : acc + c.length ≤ width
    · rw [if_pos h]
      dsimp only
      obtain ⟨ih1, ih2, ih3⟩ := ih (acc + c.length)
      refine ⟨?_, ?_, ?_⟩
      · rw [ih1, chunksLen_cons]
        omega
      · intro _
        exact ih2 h
      · intro x hx
        rcases hx with hx | hx
        · rcases List.mem_cons.mp hx with rfl | hx
          · exact List.mem_cons_self _ _
          · exact List.mem_cons_of_mem _ (ih3 x (Or.inl hx))
        · exact List.mem_cons_of_mem _ (ih3 x (Or.inr hx))
    · rw [if_neg h]
      refine ⟨by simp [chunksLen], fun hacc => hacc, ?_⟩
      intro x hx
      rcases hx with hx | hx
      · simp at hx
      · exact hx

theorem rfindHyphen_lt {chunk : List Char} {stop h : Nat}
    (hh : rfindHyphen chunk stop = some h) : h < stop ∧ h < chunk.length := by
  unfold rfindHyphen at hh
  have hm := List.mem_of_mem_getLast? hh
  rw [List.mem_filter, List.mem_range] at hm
  omega

theorem handleLongWord_exists (width curLen : Nat) (c : List Char)
    (hw : 1 ≤ width) (hcl : curLen ≤ width) :
    ∃ e, e ≤ width - curLen ∧
      handleLongWord width curLen c = (c.take e, c.drop e) := by
  unfold handleLongWord
  dsimp only
  rw [if_neg (by omega : ¬ width < 1)]
  by_cases hsp : width - curLen < c.length
  · rw [if_pos hsp]
    cases hrf : rfindHyphen c (width - curLen) with
    | none => exact ⟨width - curLen, le_rfl, rfl⟩
    | some h =>
      dsimp only
      by_cases hcond : 0 < h ∧ ((c.take h).any fun ch => ch != '-') = true
      · rw [if_pos hcond]
        have := rfindHyphen_lt hrf
        exact ⟨h + 1, by omega, rfl⟩
      · rw [if_neg hcond]
        exact ⟨width - curLen, le_rfl, rfl⟩
  · rw [if_neg hsp]
    exact ⟨width - curLen, le_rfl, rfl⟩

theorem handleLongWord_spec (width curLen : Nat) (c : List Char)
    (hw : 1 ≤ width) (hcl : curLen ≤ width) :
    (handleLongWord width curLen c).1.length ≤ width - curLen ∧
    (width < c.length → (handleLongWord width curLen c).2 ≠ []) ∧
    (handleLongWord width curLen c).1 ++ (handleLongWord width curLen c).2 = c := by
  obtain ⟨e, he, heq⟩ := handleLongWord_exists width curLen c hw hcl
  rw [heq]
  refine ⟨?_, ?_, List.take_append_drop e c⟩
  · rw [List.length_take]
    omega
  · intro hlen hnil
    rw [List.drop_eq_nil_iff] at hnil
    omega

theorem lineOut_spec (width : Nat) (cur : List (List Char))
    (hlen : chunksLen cur ≤ width)
    (hnl : ∀ x ∈ cur, '\n' ∉ x)
    (hne : ∀ x ∈ cur.dropLast, x ≠ []) :
    ∀ line, (if (dropTrailingWS cur).isEmpty then none
        else some (dropTrailingWS cur).flatten : Option (List Char)) =
        some line →
      line.length ≤ width ∧ line ≠ [] ∧ '\n' ∉ line := by
  intro line hl
  by_cases hemp : (dropTrailingWS cur).isEmpty
  · rw [if_pos hemp] at hl
    cases hl
  · rw [if_neg hemp] at hl
    obtain rfl : (dropTrailingWS cur).flatten = line := Option.some.inj hl
    have hne2 : ∀ x ∈ dropTrailingWS cur, x ≠ [] := by
      rcases List.eq_nil_or_concat cur with rfl | ⟨ys, c, rfl⟩
      · intro x hx
        simp [dropTrailingWS] at hx
      · rw [List.concat_eq_append] at hne ⊢
        rw [dropTrailingWS_concat]
        by_cases hws : chunkIsWS c
        · rw [if_pos hws]
          intro x hx
          exact hne x (by rw [List.dropLast_concat]; exact hx)
        · rw [if_neg hws]
          intro x hx
          rcases List.mem_append.mp hx with hx | hx
          · exact hne x (by rw [List.dropLast_concat]; exact hx)
          · rw [List.mem_singleton] at hx
            subst hx
            intro hnil
            subst hnil
            exact hws rfl
    refine ⟨?_, ?_, ?_⟩
    · rw [length_flatten_eq]
      exact le_trans (chunksLen_dropTrailingWS_le cur) hlen
    · intro hfl
      rw [List.flatten_eq_nil_iff] at hfl
      cases hcur2 : dropTrailingWS cur with
      | nil =>
        rw [hcur2] at hemp
        simp at hemp
      | cons z zs =>
        exact hne2 z (by rw [hcur2]; exact List.mem_cons_self _ _)
          (hfl z (by rw [hcur2]; exact List.mem_cons_self _ _))
    · intro hmem
      rw [List.mem_flatten] at hmem
      obtain ⟨l, hl1, hl2⟩ := hmem
      exact hnl l (dropTrailingWS_mem cur l hl1) hl2

theorem buildLine_spec (width : Nat) (hw : 1 ≤ width) (first : Bool)
    (cs : List (List Char)) (hgood : ∀ c ∈ cs, goodChunk c) :
    (∀ line, (buildLine width first cs).1 = some line →
      line.length ≤ width ∧ line ≠ [] ∧ '\n' ∉ line) ∧
    (∀ c ∈ (buildLine width first cs).2, goodChunk c) := by
  have hgood1 : ∀ c ∈ dropLeadingWS first cs, goodChunk c := fun c hc =>
    hgood c (dropLeadingWS_mem first cs c hc)
  obtain ⟨hp1, hp2, hp3⟩ := popFits_spec width (dropLeadingWS first cs) 0
  have hp2' := hp2 (Nat.zero_le width)
  unfold buildLine
  dsimp only
  cases hrest : (popFits width 0 (dropLeadingWS first cs)).2.2 with
  | nil =>
    dsimp only
    rw [hrest] at hp3
    constructor
    · intro line hl
      refine lineOut_spec width _ ?_ ?_ ?_ line hl
      · omega
      · intro x hx
        exact (hgood1 x (hp3 x (Or.inl hx))).2
      · intro x hx
        exact (hgood1 x (hp3 x (Or.inl (List.mem_of_mem_dropLast hx)))).1
    · intro c hc
      simp at hc
  | cons c r =>
    rw [hrest] at hp3
    dsimp only
    by_cases hwc : width < c.length
    · rw [if_pos hwc]
      dsimp only
      obtain ⟨hh1, hh2, hh3⟩ := handleLongWord_spec width
        (popFits width 0 (dropLeadingWS first cs)).2.1 c hw hp2'
      have hcgood : goodChunk c :=
        hgood1 c (hp3 c (Or.inr (List.mem_cons_self c r)))
      constructor
      · intro line hl
        refine lineOut_spec width _ ?_ ?_ ?_ line hl
        · rw [chunksLen_append, chunksLen_cons, chunksLen_nil]
          omega
        · intro x hx
          rcases List.mem_append.mp hx with hx | hx
          · exact (hgood1 x (hp3 x (Or.inl hx))).2
          · rw [List.mem_singleton] at hx
            subst hx
            intro hmem
            apply hcgood.2
            rw [← hh3]
            exact List.mem_append.mpr (Or.inl hmem)
        · intro x hx
          rw [List.dropLast_concat] at hx
          exact (hgood1 x (hp3 x (Or.inl hx))).1
      · intro d hd
        rcases List.mem_cons.mp hd with rfl | hd
        · refine ⟨hh2 hwc, fun hmem => hcgood.2 ?_⟩
          rw [← hh3]
          exact List.mem_append.mpr (Or.inr hmem)
        · exact hgood1 d (hp3 d (Or.inr (List.mem_cons_of_mem _ hd)))
    · rw [if_neg hwc]
      dsimp only
      constructor
      · intro line hl
        refine lineOut_spec width _ ?_ ?_ ?_ line hl
        · omega
        · intro x hx
          exact (hgood1 x (hp3 x (Or.inl hx))).2
        · intro x hx
          exact (hgood1 x (hp3 x (Or.inl (List.mem_of_mem_dropLast hx)))).1
      · intro d hd
        rcases List.mem_cons.mp hd with rfl | hd
        · exact hgood1 d (hp3 d (Or.inr (List.mem_cons_self _ _)))
        · exact hgood1 d (hp3 d (Or.inr (List.mem_cons_of_mem _ hd)))

theorem wrapChunksGo_spec (width : Nat) (hw : 1 ≤ width) :
    ∀ fuel (first : Bool) (cs : List (List Char)),
      (∀ c ∈ cs, goodChunk c) →
      ∀ line ∈ wrapChunksGo width fuel first cs,
        line.length ≤ width ∧ line ≠ [] ∧ '\n' ∉ line := by
  intro fuel
  induction fuel with
  | zero =>
    intro first cs _ line hl
    simp [wrapChunksGo] at hl
  | succ n ih =>
    intro first cs hgood line hl
    unfold wrapChunksGo at hl
    cases cs with
    | nil => simp at hl
    | cons c0 cs0 =>
      obtain ⟨hs1, hs2⟩ := buildLine_spec width hw first (c0 :: cs0) hgood
      cases hb : buildLine width first (c0 :: cs0) with
      | mk oline rest =>
        rw [hb] at hl hs2
        cases oline with
        | some l =>
          dsimp only at hl hs2
          rcases List.mem_cons.mp hl with rfl | hl
          · exact hs1 line (by rw [hb])
          · exact ih false rest hs2 line hl
        | none =>
          dsimp only at hl hs2
          exact ih first rest hs2 line hl

theorem munge_no_newline (s : List Char) : '\n' ∉ munge s := by
  unfold munge
  intro h
  rw [List.mem_map] at h
  obtain ⟨a, -, ha⟩ := h
  by_cases hws : isPyWS a = true
  · rw [if_pos hws] at ha
    cases ha
  · rw [if_neg hws] at ha
    subst ha
    exact hws rfl

theorem wordTokenLenGo_ge (t : List Char) (p : Nat) :
    ∀ fuel j, j ≤ wordTokenLenGo t p fuel j := by
  intro fuel
  induction fuel with
  | zero =>
    intro j
    exact le_rfl
  | succ n ih =>
    intro j
    unfold wordTokenLenGo
    by_cases h1 : closerA t p j = true
    · rw [if_pos h1]
      omega
    · rw [if_neg h1]
      by_cases h2 : closerB t (p + j) = true
      · rw [if_pos h2]
      · rw [if_neg h2]
        by_cases h3 : closerC t (p + j) = true
        · rw [if_pos h3]
        · rw [if_neg h3]
          exact le_trans (by omega) (ih (j + 1))

theorem wordTokenLen_pos (t : List Char) (p : Nat) : 1 ≤ wordTokenLen t p :=
  wordTokenLenGo_ge t p _ 1

theorem wsRunAt_pos (t : List Char) (p : Nat) (hp : p < t.length)
    (hws : ((t.get? p).all isPyWS) = true) : 1 ≤ wsRunAt t p := by
  unfold wsRunAt
  rw [List.drop_eq_getElem_cons hp, List.takeWhile_cons]
  have hg : t.get? p = some (t[p]) := by
    rw [List.get?_eq_getElem?]
    exact List.getElem?_eq_getElem hp
  rw [hg] at hws
  rw [if_pos (by simpa using hws)]
  simp

theorem splitChunksGo_good (t : List Char) (hT : '\n' ∉ t) :
    ∀ fuel p, ∀ c ∈ splitChunksGo t p fuel, goodChunk c := by
  intro fuel
  induction fuel with
  | zero =>
    intro p c hc
    simp [splitChunksGo] at hc
  | succ n ih =>
    intro p c hc
    unfold splitChunksGo at hc
    by_cases hp : p < t.length
    · rw [if_pos hp] at hc
      dsimp only at hc
      rcases List.mem_cons.mp hc with rfl | hc
      · have hN : 1 ≤ (if ((t.get? p).all isPyWS) = true then wsRunAt t p
            else if emDashToken t p = true then hyphenRunAt t p
            else wordTokenLen t p) := by
          by_cases hb1 : ((t.get? p).all isPyWS) = true
          · rw [if_pos hb1]
            exact wsRunAt_pos t p hp hb1
          · rw [if_neg hb1]
            by_cases hb2 : emDashToken t p = true
            · rw [if_pos hb2]
              unfold emDashToken emDashAhead at hb2
              simp only [Bool.and_eq_true, decide_eq_true_eq] at hb2
              omega
            · rw [if_neg hb2]
              exact wordTokenLen_pos t p
        constructor
        · intro hnil
          rw [List.take_eq_nil_iff] at hnil
          rcases hnil with hnil | hnil
          · omega
          · rw [List.drop_eq_nil_iff] at hnil
            omega
        · intro hmem
          exact hT (List.mem_of_mem_drop (List.mem_of_mem_take hmem))
      · exact ih _ c hc
    · rw [if_neg hp] at hc
      simp at hc

theorem pyWrap_lines (text : List Char) (width : Nat) (hw : 1 ≤ width) :
    ∀ line ∈ pyWrap text width,
      line.length ≤ width ∧ line ≠ [] ∧ '\n' ∉ line := by
  unfold pyWrap
  rw [if_neg (by omega : ¬ width = 0)]
  intro line hl
  exact wrapChunksGo_spec width hw _ true _
    (splitChunksGo_good (munge text) (munge_no_newline text) _ 0) line hl

/-- **C3** (corrected): every output line of the wrapper fits the per-line
character budget — including lines produced from words longer than the budget,
which are broken across lines (Python `break_long_words`), contrary to the
claim's "placed unsplit on its own line". -/
theorem claim3_lines_within_budget (text : List Char) (width : Nat)
    (hw : 1 ≤ width) :
    (pyWrap text width).all (fun line => line.length ≤ width) = true := by
  rw [List.all_eq_true]
  intro l hl
  exact decide_eq_true (pyWrap_lines text width hw l hl).1

/-- Witness for C3: the word "aaaa" at budget 3. -/
theorem claim3_witness :
    (pyWrap "aaaa".data 3).all (fun line => line.length ≤ 3) = true :=
  claim3_lines_within_budget "aaaa".data 3 (by norm_num)

/-- **C3 counterexample**: a single word of length 4 at budget 3 is split
across two lines (`["aaa", "a"]`), not placed unsplit on its own line
(`["aaaa"]`). -/
theorem claim3_counterexample :
    pyWrap "aaaa".data 3 = [['a', 'a', 'a'], ['a']] ∧
    pyWrap "aaaa".data 3 ≠ ["aaaa".data] :=
  ⟨by decide, by decide⟩

/-- **C9** (corrected): every line the wrapper produces is non-empty and
contains no newline character — all input whitespace, newlines included, is
converted to spaces before wrapping, so every line break in the output comes
from the width budget.  However (see the counterexample) leading whitespace
of the input survives on the first line and interior whitespace runs are not
collapsed. -/
theorem claim9_wrapped_lines (text : List Char) (width : Nat) (hw : 1 ≤ width) :
    (pyWrap text width).all
      (fun line => !line.isEmpty && !line.contains '\n') = true := by
  rw [List.all_eq_true]
  intro l hl
  obtain ⟨-, hne, hnl⟩ := pyWrap_lines text width hw l hl
  have h1 : l.isEmpty = false := by
    rw [Bool.eq_false_iff]
    intro hemp
    exact hne (List.isEmpty_iff.mp hemp)
  have h2 : l.contains '\n' = false := by
    rw [Bool.eq_false_iff]
    intro hcont
    exact hnl (by simpa using hcont)
  simp [h1, h2]
  exact hnl

/-- Witness for C9: the text "a b" at budget 2 wraps to two nonempty,
newline-free lines. -/
theorem claim9_witness :
    (pyWrap "a b".data 2).all
      (fun line => !line.isEmpty && !line.contains '\n') = true :=
  claim9_wrapped_lines "a b".data 2 (by norm_num)

/-- **C9 counterexample**: leading whitespace is preserved on the first line
(`" a"` wraps to `[" a"]`, a line starting with a whitespace character), and
interior whitespace runs are not collapsed (`"a  b"` keeps both spaces). -/
theorem claim9_counterexample :
    pyWrap " a".data 10 = [[' ', 'a']] ∧ isPyWS ' ' = true ∧
    pyWrap "a  b".data 10 = [['a', ' ', ' ', 'b']] :=
  ⟨by decide, rfl, by decide⟩

/-! ## Lemmas: frame dimensions -/

theorem overlayClipsOf_nil (iv : Clip) (text : String) (D : ℚ)
    (fa : Except String PILFont) (dflt : PILFont) (fs : Nat) (tc oc : String)
    (th : Nat) (h : genClips iv text D fa dflt fs tc oc th = []) :
    overlayClipsOf iv text D fa dflt fs tc oc th = [] := by
  have hg : generate_typewriter_clips fa dflt text D
      ((resizeHeight720 iv).width, (resizeHeight720 iv).height) fs tc oc th =
      genClips iv text D fa dflt fs tc oc th := rfl
  unfold overlayClipsOf overlay_text_on_video
  dsimp only
  rw [hg, h]
  rfl

theorem generate_frame_img (fa : Except String PILFont) (dflt : PILFont)
    (text : String) (d : ℚ) (size : Nat × Nat) (fs : Nat) (tc oc : String)
    (th : Nat) :
    ∀ c ∈ generate_typewriter_clips fa dflt text d size fs tc oc th,
      c.frame.img = imageResize (imageNew (size.1 / 2) (size.2 / 2))
        size.1 size.2 Resample.lanczos := by
  intro c hc
  unfold generate_typewriter_clips at hc
  rw [List.mem_map] at hc
  obtain ⟨i, -, rfl⟩ := hc
  rfl

/-- **C10** (confirmed): every frame in the overlay sequence handed to the
compositor — the generated reveal frames and the reused hold-extension frame —
has been upscaled with LANCZOS resampling from the half-scale render canvas
to exactly the post-downscale base-video dimensions, so all overlay frames
share the base video's pixel dimensions. -/
theorem claim10_overlay_frame_dims (iv : Clip) (text : String) (D : ℚ)
    (fa : Except String PILFont) (dflt : PILFont) (fs : Nat) (tc oc : String)
    (th : Nat) :
    (overlayClipsOf iv text D fa dflt fs tc oc th).all
      (fun c =>
        c.frame.img.width == (resizeHeight720 iv).width &&
        c.frame.img.height == (resizeHeight720 iv).height &&
        c.frame.img.srcWidth == (resizeHeight720 iv).width / 2 &&
        c.frame.img.srcHeight == (resizeHeight720 iv).height / 2 &&
        c.frame.img.resampledWith == some Resample.lanczos) = true := by
  rw [List.all_eq_true]
  intro c hc
  have himg : c.frame.img = imageResize
      (imageNew ((resizeHeight720 iv).width / 2)
        ((resizeHeight720 iv).height / 2))
      (resizeHeight720 iv).width (resizeHeight720 iv).height
      Resample.lanczos := by
    by_cases hnil : genClips iv text D fa dflt fs tc oc th = []
    · rw [overlayClipsOf_nil iv text D fa dflt fs tc oc th hnil] at hc
      simp at hc
    · rw [overlayClipsOf_eq iv text D fa dflt fs tc oc th hnil] at hc
      rcases List.mem_append.mp hc with hc | hc
      · exact generate_frame_img fa dflt text D (videoSizeOf iv) fs tc oc th
          c hc
      · by_cases hd : D < iv.duration
        · rw [if_pos hd] at hc
          cases hlast : (genClips iv text D fa dflt fs tc oc th).getLast? with
          | none =>
            rw [hlast] at hc
            simp at hc
          | some lc =>
            rw [hlast] at hc
            simp only [Option.map_some', Option.toList_some,
              List.mem_singleton] at hc
            subst hc
            exact generate_frame_img fa dflt text D (videoSizeOf iv) fs tc oc
              th lc (List.mem_of_mem_getLast? hlast)
        · rw [if_neg hd] at hc
          simp at hc
  rw [himg]
  simp [imageResize, imageNew]

end Lontext
